import Mathlib

/-!
Shallow embedding of `scripts/save_nbp_rates.py` (NBP exchange-rate
ingestion script): the entry normalizer (`process_table_entry`), the
artifact store (`path_for_date`, existence check, atomic write modelled as
a state update), the backfill chunk loop (`backfill`), the HTTP retry loop
(`http_get`), the recent-window catch-up (`fetch_recent_and_today`) and
the legacy migration pass (`migrate_legacy_structure`).

Machine-level conventions of the embedding:
* JSON scalar values are modelled by `JVal`; a Python `dict.get(k)` that
  yields `None` both for an absent key and for a JSON `null` value is
  modelled by `jget`; Python truthiness of such values by `truthy`.
* The filesystem effects of one run are modelled by explicit state
  (`Store` for the artifact tree, `MigFS` for one legacy file's
  relocation universe); OS-level faults (a failing `os.replace`, an
  unreadable file during hashing) are outside the model, which captures
  the no-IO-error semantics of the script.
* Dates inside entries are `YMD` triples produced by `parseYMD`, the model
  of `datetime.strptime(s[:10], "%Y-%m-%d")`; dates driving the backfill
  chunk arithmetic are abstract day numbers (`Nat`), exactly as the script
  only ever adds day deltas to them.
-/

/-- A scalar JSON value as it appears in the fields the script reads
(`date`, `effectiveDate`, `code`, `currency`, `mid`, `bid`, `ask`, ...). -/
inductive JVal where
  | jnull
  | jbool (b : Bool)
  | jnum (q : ℚ)
  | jstr (s : String)
deriving DecidableEq, Repr

/-- Python truthiness of a JSON scalar: `None`, `False`, `0` and `""` are
falsy, everything else truthy. -/
def JVal.truthy : JVal → Bool
  | .jnull => false
  | .jbool b => b
  | .jnum q => q ≠ 0
  | .jstr s => s ≠ ""

/-- `d.get(k)`: an absent key and a key bound to JSON `null` both come back
as Python `None` (here `none`); any other value is returned as is. -/
def jget : Option JVal → Option JVal
  | none => none
  | some .jnull => none
  | some v => some v

/-- Truthiness of a `d.get(k)` result (`None` is falsy). -/
def truthyOpt : Option JVal → Bool
  | none => false
  | some v => v.truthy

/-- Python `x or y` on `.get` results: `x` if truthy, else `y`. -/
def pyOr (a b : Option JVal) : Option JVal :=
  if truthyOpt a then a else b

/-- One raw quote record of a table, as a JSON object: each field is
`some v` when the key is present (possibly bound to `null`). -/
structure RawRate where
  currency : Option JVal := none
  name : Option JVal := none
  code : Option JVal := none
  mid : Option JVal := none
  bid : Option JVal := none
  ask : Option JVal := none
deriving DecidableEq, Repr

/-- An element of a table's `rates` array: either a JSON object or some
non-object value (skipped by the normalizer). -/
inductive RawItem where
  | nondict
  | dict (r : RawRate)
deriving DecidableEq, Repr

/-- A normalized quote record as built by `process_table_entry`: the keys
that were inserted into `rate_entry`. -/
structure RateEntry where
  currency : Option JVal := none
  code : Option JVal := none
  mid : Option JVal := none
  bid : Option JVal := none
  ask : Option JVal := none
deriving DecidableEq, Repr

/-- `currency = r.get("currency") or r.get("name") or None`. -/
def currencyOf (r : RawRate) : Option JVal :=
  pyOr (jget r.currency) (pyOr (jget r.name) none)

/-- `code = r.get("code")`. -/
def codeOf (r : RawRate) : Option JVal :=
  jget r.code

/-- The `rate_entry` dict built for one quote record: `currency`/`code`
are inserted when non-`None`, `mid`/`bid`/`ask` whenever the key is
present (`"mid" in r`), regardless of the value. -/
def mkRateEntry (r : RawRate) : RateEntry :=
  { currency := currencyOf r
    code := codeOf r
    mid := r.mid
    bid := r.bid
    ask := r.ask }

/-- `if not rate_entry:` — the built dict is empty (falsy). -/
def RateEntry.isEmptyEntry (e : RateEntry) : Bool :=
  e.currency = none ∧ e.code = none ∧ e.mid = none ∧ e.bid = none ∧ e.ask = none

/-- The `rates_list` loop of `process_table_entry`: non-dict elements are
skipped, a record whose `rate_entry` came out empty is dropped, the rest
are appended in input order. -/
def normalizeRates (l : List RawItem) : List RateEntry :=
  l.filterMap fun item =>
    match item with
    | .nondict => none
    | .dict r =>
      let e := mkRateEntry r
      if e.isEmptyEntry then none else some e

/-- A calendar date as produced by `strptime("%Y-%m-%d")`. -/
structure YMD where
  y : Nat
  m : Nat
  d : Nat
deriving DecidableEq, Repr

/-- Gregorian leap year, as implemented by `datetime`. -/
def isLeap (y : Nat) : Bool :=
  (y % 4 = 0 ∧ y % 100 ≠ 0) ∨ y % 400 = 0

/-- Days in a month, as validated by `datetime.date`. -/
def daysInMonth (y m : Nat) : Nat :=
  if m = 2 then (if isLeap y then 29 else 28)
  else if m = 4 ∨ m = 6 ∨ m = 9 ∨ m = 11 then 30
  else 31

/-- Numeric value of a decimal digit character. -/
def digitVal (c : Char) : Nat := c.toNat - 48

/-- `datetime.strptime(s, "%Y-%m-%d").date()` on the ten-character
`YYYY-MM-DD` shape the API serves: four digit year, two digit month and
day, both range-checked by `datetime.date`; anything else raises (is
`none`). -/
def parseYMD (s : String) : Option YMD :=
  match s.toList with
  | [y1, y2, y3, y4, '-', m1, m2, '-', d1, d2] =>
    if y1.isDigit ∧ y2.isDigit ∧ y3.isDigit ∧ y4.isDigit ∧
       m1.isDigit ∧ m2.isDigit ∧ d1.isDigit ∧ d2.isDigit then
      let y := digitVal y1 * 1000 + digitVal y2 * 100 + digitVal y3 * 10 + digitVal y4
      let m := digitVal m1 * 10 + digitVal m2
      let d := digitVal d1 * 10 + digitVal d2
      if 1 ≤ m ∧ m ≤ 12 ∧ 1 ≤ d ∧ d ≤ daysInMonth y m ∧ 1 ≤ y then
        some ⟨y, m, d⟩
      else none
    else none
  | _ => none

/-- `datetime.strptime(eff_date[:10], "%Y-%m-%d")` where `eff_date` is the
raw JSON value: a non-string raises inside the `try` (is `none`). -/
def dateVal : JVal → Option YMD
  | .jstr s => parseYMD (s.take 10)
  | _ => none

/-- Two-digit zero padding used by `strftime("%d_%m_%Y")`. -/
def pad2 (n : Nat) : String :=
  if n < 10 then "0" ++ toString n else toString n

/-- `path_for_date`: `docs/exc/<YEAR>/<dd_mm_YYYY>.json.gz` (the directory
creation is a no-op in the model). -/
def pathForDate (d : YMD) : String :=
  "docs/exc/" ++ toString d.y ++ "/" ++
    pad2 d.d ++ "_" ++ pad2 d.m ++ "_" ++ toString d.y ++ ".json.gz"

/-- The artifact payload written by `write_json_gz_atomic`: top-level
`date` (the raw effective-date value) and the normalized `rates` list. -/
structure Payload where
  date : JVal
  rates : List RateEntry
deriving DecidableEq, Repr

/-- The filesystem state touched by ingestion: the canonical artifact per
date (`docs/exc/<Y>/<dd_mm_Y>.json.gz`), the `.last` activity log, the
record of `write_json_gz_atomic` calls and of the failed ones. -/
structure Store where
  files : YMD → Option Payload
  log : List String
  writeCalls : List YMD
  failedWrites : List YMD

/-- The empty artifact tree. -/
def stEmpty : Store := ⟨fun _ => none, [], [], []⟩

/-- Pointwise update of the artifact map at one date. -/
def updateF (f : YMD → Option Payload) (d : YMD) (p : Payload) : YMD → Option Payload :=
  fun x => if x = d then some p else f x

/-- One raw table entry of the API response: a JSON object with the date
under one of three key spellings and a `rates` array (`none` models an
absent key, `entry.get("rates", [])` defaulting it to `[]`), or a
non-object value. -/
structure EntryObj where
  effectiveDate : Option JVal := none
  effective_date : Option JVal := none
  date : Option JVal := none
  rates : Option (List RawItem) := none
deriving DecidableEq, Repr

/-- `entry` as seen by `process_table_entry`: a dict or something else. -/
inductive RawEntry where
  | nondict
  | dict (e : EntryObj)
deriving DecidableEq, Repr

/-- `eff_date = entry.get("effectiveDate") or entry.get("effective_date")
or entry.get("date")`. -/
def effOf (e : EntryObj) : Option JVal :=
  pyOr (jget e.effectiveDate) (pyOr (jget e.effective_date) (jget e.date))

/-- The date a table entry resolves to, when `process_table_entry` gets
past its defensive checks: the entry is a dict, the effective-date chain
is truthy, and the value parses as a calendar date. -/
def dateOf : RawEntry → Option YMD
  | .nondict => none
  | .dict e =>
    match effOf e with
    | none => none
    | some v => if v.truthy then dateVal v else none

/-- The result of `http_get`: the decoded body, an `HTTPError` with its
status code, or any other exception (network failure and the like). -/
inductive HttpRes where
  | ok (body : String)
  | httpErr (code : Nat)
  | netErr
deriving DecidableEq, Repr

/-- The external world of one run: the `http_get` outcome for each range
URL and each single-day URL, `json.loads` on a body, the outcome of each
artifact write, the configured start day, today, and whether the
`.backfill_done` marker exists. Dates of the fetch loops are abstract day
numbers. -/
structure Env where
  rangeHttp : Nat → Nat → HttpRes
  daySingle : Nat → HttpRes
  parseJson : String → Option (List RawEntry)
  writeOk : YMD → Bool
  start : Nat
  today : Nat
  backfillDone : Bool

/-- `process_table_entry(entry)`: defensive field extraction, date parse,
existence check at the canonical path (skip + `.last` append when the
artifact already exists), else normalization and atomic write (a
successful write appends to `.last`; a failed one is recorded and
reported as `False`). -/
def processTableEntry (env : Env) (entry : RawEntry) (st : Store) : Bool × Store :=
  match entry with
  | .nondict => (false, st)
  | .dict e =>
    match effOf e with
    | none => (false, st)
    | some v =>
      if v.truthy then
        match dateVal v with
        | none => (false, st)
        | some d =>
          if (st.files d).isSome then
            (true, { st with log := st.log ++ [pathForDate d] })
          else
            let payload : Payload := ⟨v, normalizeRates (e.rates.getD [])⟩
            if env.writeOk d then
              (true, { st with
                        files := updateF st.files d payload
                        log := st.log ++ [pathForDate d]
                        writeCalls := st.writeCalls ++ [d] })
            else
              (false, { st with
                         writeCalls := st.writeCalls ++ [d]
                         failedWrites := st.failedWrites ++ [d] })
      else (false, st)

/-- `for entry in data: process_table_entry(entry)` (the boolean results
are discarded by both calling loops). -/
def processList (env : Env) (l : List RawEntry) (st : Store) : Store :=
  l.foldl (fun s e => (processTableEntry env e s).2) st

/-- What `urllib.request.urlopen` does on one attempt: a body, an
`HTTPError` with a status code, or some other exception. -/
inductive HttpResp where
  | ok (body : String)
  | httpError (code : Nat)
  | netError
deriving DecidableEq, Repr

/-- The `while True` loop of `http_get`, entered at attempt number
`attempt` (1-based): a 404 returns at once; a 5xx retries while
`attempt <= retries` after sleeping `backoff_base * 2 ** (attempt - 1)`;
any other `HTTPError` returns; any other exception retries on the same
bound. Returns the result, the number of attempts issued, and the list of
sleep delays in order. -/
def httpGetFrom (oracle : Nat → HttpResp) (retries : Nat) (base : ℚ) :
    (attempt : Nat) → HttpRes × Nat × List ℚ
  | attempt =>
    match oracle attempt with
    | .ok body => (.ok body, 1, [])
    | .httpError c =>
      if c = 404 then (.httpErr c, 1, [])
      else if h : (500 ≤ c ∧ c < 600) ∧ attempt ≤ retries then
        let wait := base * 2 ^ (attempt - 1)
        let r := httpGetFrom oracle retries base (attempt + 1)
        (r.1, r.2.1 + 1, wait :: r.2.2)
      else (.httpErr c, 1, [])
    | .netError =>
      if h : attempt ≤ retries then
        let wait := base * 2 ^ (attempt - 1)
        let r := httpGetFrom oracle retries base (attempt + 1)
        (r.1, r.2.1 + 1, wait :: r.2.2)
      else (.netErr, 1, [])
termination_by attempt => retries + 1 - attempt
decreasing_by all_goals omega

/-- `http_get(url, retries=3, backoff_base=0.5)` for one URL whose
successive attempts are answered by `oracle`. -/
def httpGet (oracle : Nat → HttpResp) (retries : Nat) (base : ℚ) :
    HttpRes × Nat × List ℚ :=
  httpGetFrom oracle retries base 1

/-- `fetch_range(start_d, end_d)`: `http_get` on the range URL; any
exception result and any body `json.loads` rejects become `None`. -/
def fetchRange (env : Env) (s e : Nat) : Option (List RawEntry) :=
  match env.rangeHttp s e with
  | .ok body => env.parseJson body
  | _ => none

/-- `CHUNK_DAYS`. -/
def CHUNK_DAYS : Nat := 93

/-- The `while cur <= today` loop of `backfill`: each iteration requests
`[cur, min(cur + CHUNK_DAYS - 1, today)]`, processes the returned entries
when the response is truthy, and advances `cur` to one past the chunk end.
Returns the final store and the list of requested ranges in order. -/
def backfillLoop (env : Env) (today : Nat) : (cur : Nat) → Store → Store × List (Nat × Nat)
  | cur, st =>
    if h : cur ≤ today then
      let chunkEnd := min (cur + (CHUNK_DAYS - 1)) today
      let st1 :=
        match fetchRange env cur chunkEnd with
        | some l => if l.isEmpty then st else processList env l st
        | none => st
      let r := backfillLoop env today (chunkEnd + 1) st1
      (r.1, (cur, chunkEnd) :: r.2)
    else (st, [])
termination_by cur _ => today + 1 - cur
decreasing_by simp only [CHUNK_DAYS]; omega

/-- The day-probing fallback loop of `fetch_recent_and_today` (lines
492-515), entered at offset `i` from today: a 404 skips to the next older
day, any other `HTTPError`, network error or JSON decode failure returns
`False`, a truthy decoded body is processed and returns `True`, an
exhausted window returns `True`. Also returns the list of days actually
requested, most recent first. -/
def probeLoop (env : Env) (today lookback : Nat) : (i : Nat) → Store → Bool × Store × List Nat
  | i, st =>
    if _h : i < lookback then
      let d := today - i
      match env.daySingle d with
      | .httpErr c =>
        if c = 404 then
          let r := probeLoop env today lookback (i + 1) st
          (r.1, r.2.1, d :: r.2.2)
        else (false, st, [d])
      | .netErr => (false, st, [d])
      | .ok body =>
        match env.parseJson body with
        | none => (false, st, [d])
        | some l =>
          if l.isEmpty then
            let r := probeLoop env today lookback (i + 1) st
            (r.1, r.2.1, d :: r.2.2)
          else (true, processList env l st, [d])
    else (true, st, [])
termination_by i _ => lookback - i
decreasing_by all_goals omega

/-- `fetch_recent_and_today(today, lookback_days)`: one range request for
the trailing window; a truthy response is processed and returns `True`,
otherwise the single-day fallback runs. The third component lists the
single days probed. -/
def fetchRecentAndToday (env : Env) (today lookback : Nat) (st : Store) :
    Bool × Store × List Nat :=
  match fetchRange env (today - (lookback - 1)) today with
  | some l => if l.isEmpty then probeLoop env today lookback 0 st
              else (true, processList env l st, [])
  | none => probeLoop env today lookback 0 st

/-- `main()`: legacy migration (not touching the artifact-per-date map),
backfill when the `.backfill_done` marker is absent, recent catch-up with
its result discarded, then `sys.exit(0)`. Returns the process exit code
and the final store. -/
def mainRun (env : Env) (st : Store) : Nat × Store :=
  let st1 := if env.backfillDone then st else (backfillLoop env env.today env.start st).1
  let r := fetchRecentAndToday env env.today 7 st1
  (0, r.2.1)

/-- `fname.endswith(suffix)`. -/
def pyEndsWith (s suffix : String) : Bool :=
  suffix.toList.isSuffixOf s.toList

/-- The extension filter of the migration walk:
`fname.endswith(".json") or fname.endswith(".json.gz")`. -/
def relevantName (name : String) : Bool :=
  pyEndsWith name ".json" || pyEndsWith name ".json.gz"

/-- `FNAME_REGEX = ^(\d{2})_(\d{2})_(\d{4})(?:\.json|\.json\.gz)$`;
a match yields the year group as a number. -/
def fnameYear (name : String) : Option Nat :=
  match name.toList with
  | d1 :: d2 :: '_' :: m1 :: m2 :: '_' :: y1 :: y2 :: y3 :: y4 :: rest =>
    if (d1.isDigit ∧ d2.isDigit ∧ m1.isDigit ∧ m2.isDigit ∧
        y1.isDigit ∧ y2.isDigit ∧ y3.isDigit ∧ y4.isDigit) ∧
       (rest = ".json".toList ∨ rest = ".json.gz".toList) then
      some (digitVal y1 * 1000 + digitVal y2 * 100 + digitVal y3 * 10 + digitVal y4)
    else none
  | _ => none

/-- A legacy file's decoded JSON as far as the migration reads it: an
object with the three possible date keys, an array whose head may be such
an object, or anything else. -/
structure DocObj where
  date : Option JVal := none
  effectiveDate : Option JVal := none
  effective_date : Option JVal := none
deriving DecidableEq, Repr

/-- Decoded JSON document shape (only the parts lines 193-208 look at). -/
inductive JsonDoc where
  | obj (o : DocObj)
  | arr (l : List DocObj)
  | other
deriving DecidableEq, Repr

/-- `data.get("date") or data.get("effectiveDate") or
data.get("effective_date")`. -/
def docDate (o : DocObj) : Option JVal :=
  pyOr (jget o.date) (pyOr (jget o.effectiveDate) (jget o.effective_date))

/-- Year extraction from a legacy file's content (lines 192-208):
`read_json_from_file` result `doc` (`none` when unreadable), date string
from the object — or from the first array element when that chain was
falsy — then `strptime(dstr[:10], "%Y-%m-%d").year`, any slip yielding no
year. An untruthy document (`if data:`) carries no date key and lands in
the same `none`. -/
def contentYear (doc : Option JsonDoc) : Option Nat :=
  match doc with
  | none => none
  | some data =>
    let dstr :=
      match data with
      | .obj o => docDate o
      | _ => none
    let dstr :=
      if truthyOpt dstr then dstr
      else
        match data with
        | .arr (o :: _) => docDate o
        | _ => none
    match dstr with
    | some (.jstr s) => (parseYMD (s.take 10)).map (·.y)
    | _ => none

/-- The year a legacy file is filed under: the filename pattern first,
else the content date (lines 187-208). -/
def determineYear (name : String) (doc : Option JsonDoc) : Option Nat :=
  match fnameYear name with
  | some y => some y
  | none => contentYear doc

/-- Python truthiness of an `os.path.getmtime` result (`0.0` is falsy,
`none` models the unavailable case where the `try` failed). -/
def truthyM (m : Option ℚ) : Bool :=
  match m with
  | none => false
  | some v => v ≠ 0

/-- The disposition `migrate_legacy_structure` chooses for one regular
file of a legacy directory (lines 182-308), given the file's name, its
decoded content, its byte content, the canonical destination's content
(`none` when the target path does not exist) and the two mtimes.
`sha256` equality is modelled as byte equality. -/
inductive FileAction where
  | skipIrrelevant
  | quarantine (name : String)
  | moveToTarget (y : Nat)
  | deleteDup (y : Nat)
  | backupReplace (y : Nat)
  | conflictAside (y : Nat)
deriving DecidableEq, Repr

/-- The decision table of the migration walk for one file. -/
def classifyFile (name : String) (doc : Option JsonDoc) (content : String)
    (tgt : Option String) (srcM tgtM : Option ℚ) : FileAction :=
  if ¬ relevantName name then .skipIrrelevant
  else
    match determineYear name doc with
    | none => .quarantine name
    | some y =>
      match tgt with
      | none => .moveToTarget y
      | some tc =>
        if content = tc then .deleteDup y
        else if truthyM srcM ∧ truthyM tgtM ∧
                 srcM.getD 0 > tgtM.getD 0 then .backupReplace y
        else .conflictAside y

/-- The slots one legacy file's migration can touch: the source path in
the legacy directory, the canonical target path, the timestamped `.bak`
backup name, the timestamped conflict name, and the `bad_legacy`
quarantine slot. `none` means no file at that location. -/
structure MigFS where
  src : Option String
  tgt : Option String
  bak : Option String
  conflict : Option String
  quarantineSlot : Option String
deriving DecidableEq, Repr

/-- Effect of one disposition on the file's slots (each `os.replace` /
`os.remove` succeeding). -/
def applyAction (a : FileAction) (fs : MigFS) : MigFS :=
  match a with
  | .skipIrrelevant => fs
  | .quarantine _ => { fs with src := none, quarantineSlot := fs.src }
  | .moveToTarget _ => { fs with src := none, tgt := fs.src }
  | .deleteDup _ => { fs with src := none }
  | .backupReplace _ => { fs with src := none, bak := fs.tgt, tgt := fs.src }
  | .conflictAside _ => { fs with src := none, conflict := fs.src }

/-- Migration of one directory entry: nothing happens when the source
path is not a regular file, else the classified action is applied. -/
def migrateFile (name : String) (doc : Option JsonDoc) (srcM tgtM : Option ℚ)
    (fs : MigFS) : MigFS :=
  match fs.src with
  | none => fs
  | some c => applyAction (classifyFile name doc c fs.tgt srcM tgtM) fs

/-- An entry of a legacy directory listing. -/
inductive DirEntry where
  | file (name : String) (content : String) (doc : Option JsonDoc) (srcM : Option ℚ)
  | subdir (name : String)
deriving DecidableEq, Repr

/-- What the migration walk finds at the canonical side while processing a
legacy directory: destination content and mtime per (year, filename). -/
structure MigEnv where
  tgtContent : Nat → String → Option String
  tgtMtime : Nat → String → Option ℚ

/-- The action chosen for one directory entry (subdirectories are skipped
by the `os.path.isfile` check). -/
def entryAction (menv : MigEnv) : DirEntry → FileAction
  | .subdir _ => .skipIrrelevant
  | .file name content doc srcM =>
    match determineYear name doc with
    | none => classifyFile name doc content none srcM none
    | some y => classifyFile name doc content (menv.tgtContent y name) srcM (menv.tgtMtime y name)

/-- One legacy directory's processing (lines 176-319): every entry whose
action is a real disposition is moved out of the directory (each
`os.replace`/`os.remove` succeeding), the rest remain; the directory is
removed exactly when nothing remains. Returns the remaining listing and
whether the directory was removed. -/
def processLegacyDir (menv : MigEnv) (entries : List DirEntry) : List DirEntry × Bool :=
  let remaining := entries.filter fun e => entryAction menv e = .skipIrrelevant
  (remaining, remaining.isEmpty)

/-- Sequential processing of a run's entry lists (one list per processed
response), the shared Normalizer → Store path of backfill and catch-up. -/
def foldProcess (env : Env) (L : List (List RawEntry)) (st : Store) : Store :=
  L.foldl (fun s l => processList env l s) st

/-- The entry lists the backfill loop hands to `process_table_entry`,
chunk by chunk: a chunk contributes its decoded response when that
response is truthy. Determined by the environment alone — the loop's
control flow never consults the store. -/
def bfLists (env : Env) (today : Nat) : (cur : Nat) → List (List RawEntry)
  | cur =>
    if _h : cur ≤ today then
      let chunkEnd := min (cur + (CHUNK_DAYS - 1)) today
      (match fetchRange env cur chunkEnd with
       | some l => if l.isEmpty then [] else [l]
       | none => []) ++ bfLists env today (chunkEnd + 1)
    else []
termination_by cur => today + 1 - cur
decreasing_by simp only [CHUNK_DAYS]; omega

/-- The entry list the day-probing fallback ends up processing (`none`
when it fails or exhausts the window) — again determined by the
environment alone. -/
def probeList (env : Env) (today lookback : Nat) : (i : Nat) → Option (List RawEntry)
  | i =>
    if _h : i < lookback then
      match env.daySingle (today - i) with
      | .httpErr c =>
        if c = 404 then probeList env today lookback (i + 1) else none
      | .netErr => none
      | .ok body =>
        match env.parseJson body with
        | none => none
        | some l => if l.isEmpty then probeList env today lookback (i + 1) else some l
    else none
termination_by i => lookback - i
decreasing_by all_goals omega

/-- The entry lists the recent catch-up processes. -/
def catchupLists (env : Env) (today lookback : Nat) : List (List RawEntry) :=
  match fetchRange env (today - (lookback - 1)) today with
  | some l => if l.isEmpty then (probeList env today lookback 0).toList else [l]
  | none => (probeList env today lookback 0).toList

/-- All entry lists one `main()` run processes, in order. -/
def runLists (env : Env) : List (List RawEntry) :=
  (if env.backfillDone then [] else bfLists env env.today env.start) ++
    catchupLists env env.today 7

/-- The request ranges of the backfill loop, store-free. -/
def chunksFrom (today : Nat) : (cur : Nat) → List (Nat × Nat)
  | cur =>
    if h : cur ≤ today then
      let chunkEnd := min (cur + (CHUNK_DAYS - 1)) today
      (cur, chunkEnd) :: chunksFrom today (chunkEnd + 1)
    else []
termination_by cur => today + 1 - cur
decreasing_by simp only [CHUNK_DAYS]; omega

/-- A table entry for 2024-03-01 with no `rates` key. -/
def entryMar1 : RawEntry := .dict { effectiveDate := some (.jstr "2024-03-01") }

/-- The date 2024-03-01. -/
def d0 : YMD := ⟨2024, 3, 1⟩

/-- A minimal artifact payload for `d0`. -/
def payload0 : Payload := ⟨.jstr "2024-03-01", []⟩

/-- A store already holding the artifact for 2024-03-01. -/
def stWithMar1 : Store :=
  { files := updateF (fun _ => none) d0 payload0
    log := [], writeCalls := [], failedWrites := [] }

/-- An environment whose writes all succeed and whose fetches fail. -/
def envAllOk : Env :=
  { rangeHttp := fun _ _ => .netErr
    daySingle := fun _ => .netErr
    parseJson := fun _ => none
    writeOk := fun _ => true
    start := 0, today := 0, backfillDone := true }

/-- An environment whose catch-up range fetch returns one entry and whose
artifact writes all fail. -/
def env3 : Env :=
  { rangeHttp := fun _ _ => .ok "B"
    daySingle := fun _ => .httpErr 404
    parseJson := fun b => if b = "B" then some [entryMar1] else none
    writeOk := fun _ => false
    start := 0, today := 10, backfillDone := true }

/-- An environment where the trailing range request yields nothing, days
10 and 9 answer 404, and day 8 carries data. -/
def env8 : Env :=
  { rangeHttp := fun _ _ => .httpErr 404
    daySingle := fun d => if d = 8 then .ok "B" else .httpErr 404
    parseJson := fun b => if b = "B" then some [entryMar1] else none
    writeOk := fun _ => true
    start := 0, today := 10, backfillDone := true }

/-- A quote record carrying only a currency code — no price fields. -/
def rateCodeOnly : RawRate := { code := some (.jstr "USD") }

/-- A legacy-migration slot state: source `"A"`, divergent target `"B"`. -/
def fs0 : MigFS := ⟨some "A", some "B", none, none, none⟩

/-- A canonical side with no existing destinations. -/
def menv0 : MigEnv := ⟨fun _ _ => none, fun _ _ => none⟩

/-- A legacy directory holding one non-JSON file. -/
def entries0 : List DirEntry := [.file "README.txt" "hello" none none]

lemma updateF_isSome {f : YMD → Option Payload} {d : YMD} {p : Payload} (x : YMD)
    (h : (f x).isSome) : ((updateF f d p) x).isSome := by
  unfold updateF
  split <;> simp [h]

lemma updateF_isSome_self (f : YMD → Option Payload) (d : YMD) (p : Payload) :
    ((updateF f d p) d).isSome := by
  simp [updateF]

lemma processTableEntry_of_none {env : Env} {entry : RawEntry} {st : Store}
    (h : dateOf entry = none) : processTableEntry env entry st = (false, st) := by
  cases entry with
  | nondict => rfl
  | dict e =>
    simp only [dateOf] at h
    cases heff : effOf e with
    | none => simp [processTableEntry, heff]
    | some v =>
      rw [heff] at h
      by_cases ht : v.truthy
      · simp only [ht, if_true] at h
        simp [processTableEntry, heff, ht, h]
      · simp [processTableEntry, heff, ht]

lemma dateOf_dict_elim {e : EntryObj} {d : YMD} (h : dateOf (.dict e) = some d) :
    ∃ v, effOf e = some v ∧ v.truthy = true ∧ dateVal v = some d := by
  simp only [dateOf] at h
  cases heff : effOf e with
  | none => rw [heff] at h; exact absurd h (by simp)
  | some v =>
    rw [heff] at h
    by_cases ht : v.truthy
    · simp only [ht, if_true] at h
      exact ⟨v, rfl, ht, h⟩
    · simp [ht] at h

lemma processTableEntry_exists_skip {env : Env} {entry : RawEntry} {st : Store} {d : YMD}
    (h : dateOf entry = some d) (hex : (st.files d).isSome) :
    processTableEntry env entry st = (true, { st with log := st.log ++ [pathForDate d] }) := by
  cases entry with
  | nondict => simp [dateOf] at h
  | dict e =>
    obtain ⟨v, heff, ht, hdv⟩ := dateOf_dict_elim h
    simp [processTableEntry, heff, ht, hdv, hex]

lemma processTableEntry_files_mono {env : Env} {entry : RawEntry} {st : Store} (x : YMD)
    (h : (st.files x).isSome) : ((processTableEntry env entry st).2.files x).isSome := by
  cases entry with
  | nondict => exact h
  | dict e =>
    cases heff : effOf e with
    | none => simpa [processTableEntry, heff] using h
    | some v =>
      by_cases ht : v.truthy
      · cases hdv : dateVal v with
        | none => simpa [processTableEntry, heff, ht, hdv] using h
        | some d =>
          by_cases hex : (st.files d).isSome
          · simpa [processTableEntry, heff, ht, hdv, hex] using h
          · by_cases hw : env.writeOk d
            · simp [processTableEntry, heff, ht, hdv, hex, hw]
              exact updateF_isSome x h
            · simpa [processTableEntry, heff, ht, hdv, hex, hw] using h
      · simpa [processTableEntry, heff, ht] using h

lemma processTableEntry_establishes {env : Env} {entry : RawEntry} {st : Store} {d : YMD}
    (h : dateOf entry = some d) (hw : env.writeOk d = true) :
    ((processTableEntry env entry st).2.files d).isSome := by
  cases entry with
  | nondict => simp [dateOf] at h
  | dict e =>
    obtain ⟨v, heff, ht, hdv⟩ := dateOf_dict_elim h
    by_cases hex : (st.files d).isSome
    · simp [processTableEntry, heff, ht, hdv, hex]
    · simp [processTableEntry, heff, ht, hdv, hex, hw]
      exact updateF_isSome_self _ _ _

lemma processTableEntry_noop {env : Env} {entry : RawEntry} {st : Store}
    (hall : ∀ d, dateOf entry = some d → (st.files d).isSome) :
    (processTableEntry env entry st).2.files = st.files ∧
    (processTableEntry env entry st).2.writeCalls = st.writeCalls := by
  cases hd : dateOf entry with
  | none => rw [processTableEntry_of_none hd]; exact ⟨rfl, rfl⟩
  | some d =>
    rw [processTableEntry_exists_skip hd (hall d hd)]
    exact ⟨rfl, rfl⟩

lemma processList_nil (env : Env) (st : Store) : processList env [] st = st := rfl

lemma processList_cons (env : Env) (e : RawEntry) (l : List RawEntry) (st : Store) :
    processList env (e :: l) st = processList env l (processTableEntry env e st).2 := rfl

lemma processList_files_mono {env : Env} {l : List RawEntry} {st : Store} (x : YMD)
    (h : (st.files x).isSome) : ((processList env l st).files x).isSome := by
  induction l generalizing st with
  | nil => exact h
  | cons e l ih =>
    rw [processList_cons]
    exact ih (processTableEntry_files_mono x h)

lemma processList_establishes {env : Env} {l : List RawEntry} {st : Store}
    {entry : RawEntry} {d : YMD}
    (hmem : entry ∈ l) (hd : dateOf entry = some d) (hw : env.writeOk d = true) :
    ((processList env l st).files d).isSome := by
  induction l generalizing st with
  | nil => simp at hmem
  | cons e l ih =>
    rw [processList_cons]
    rcases List.mem_cons.mp hmem with h | h
    · subst h
      exact processList_files_mono d (processTableEntry_establishes hd hw)
    · exact ih h

lemma processList_noop {env : Env} {l : List RawEntry} {st : Store}
    (hall : ∀ e ∈ l, ∀ d, dateOf e = some d → (st.files d).isSome) :
    (processList env l st).files = st.files ∧
    (processList env l st).writeCalls = st.writeCalls := by
  induction l generalizing st with
  | nil => exact ⟨rfl, rfl⟩
  | cons e l ih =>
    rw [processList_cons]
    have h1 := @processTableEntry_noop env e st
      (fun d hd => hall e (List.mem_cons_self e l) d hd)
    have h2 := @ih (processTableEntry env e st).2
      (fun e' he' d hd => by
        rw [h1.1]; exact hall e' (List.mem_cons_of_mem e he') d hd)
    exact ⟨h2.1.trans h1.1, h2.2.trans h1.2⟩

lemma foldProcess_nil (env : Env) (st : Store) : foldProcess env [] st = st := rfl

lemma foldProcess_cons (env : Env) (l : List RawEntry) (L : List (List RawEntry))
    (st : Store) : foldProcess env (l :: L) st = foldProcess env L (processList env l st) := rfl

lemma foldProcess_append (env : Env) (A B : List (List RawEntry)) (st : Store) :
    foldProcess env (A ++ B) st = foldProcess env B (foldProcess env A st) := by
  simp [foldProcess, List.foldl_append]

lemma foldProcess_files_mono {env : Env} {L : List (List RawEntry)} {st : Store} (x : YMD)
    (h : (st.files x).isSome) : ((foldProcess env L st).files x).isSome := by
  induction L generalizing st with
  | nil => exact h
  | cons l L ih =>
    rw [foldProcess_cons]
    exact ih (processList_files_mono x h)

lemma foldProcess_establishes {env : Env} {L : List (List RawEntry)} {st : Store}
    {l : List RawEntry} {entry : RawEntry} {d : YMD}
    (hL : l ∈ L) (hmem : entry ∈ l) (hd : dateOf entry = some d)
    (hw : env.writeOk d = true) :
    ((foldProcess env L st).files d).isSome := by
  induction L generalizing st with
  | nil => simp at hL
  | cons l' L ih =>
    rw [foldProcess_cons]
    rcases List.mem_cons.mp hL with h | h
    · subst h
      exact foldProcess_files_mono d (processList_establishes hmem hd hw)
    · exact ih h

lemma foldProcess_noop {env : Env} {L : List (List RawEntry)} {st : Store}
    (hall : ∀ l ∈ L, ∀ e ∈ l, ∀ d, dateOf e = some d → (st.files d).isSome) :
    (foldProcess env L st).files = st.files ∧
    (foldProcess env L st).writeCalls = st.writeCalls := by
  induction L generalizing st with
  | nil => exact ⟨rfl, rfl⟩
  | cons l L ih =>
    rw [foldProcess_cons]
    have h1 := @processList_noop env l st
      (fun e he d hd => hall l (List.mem_cons_self l L) e he d hd)
    have h2 := @ih (processList env l st)
      (fun l' hl' e he d hd => by
        rw [h1.1]; exact hall l' (List.mem_cons_of_mem l hl') e he d hd)
    exact ⟨h2.1.trans h1.1, h2.2.trans h1.2⟩


lemma backfillLoop_store (env : Env) (today : Nat) :
    ∀ n cur st, today + 1 - cur ≤ n →
      (backfillLoop env today cur st).1 = foldProcess env (bfLists env today cur) st := by
  intro n
  induction n with
  | zero =>
    intro cur st hn
    have h : ¬ cur ≤ today := by omega
    rw [backfillLoop, bfLists]
    simp [h, foldProcess_nil]
  | succ n ih =>
    intro cur st hn
    by_cases h : cur ≤ today
    · rw [backfillLoop, bfLists]
      simp only [dif_pos h]
      rw [foldProcess_append]
      cases hf : fetchRange env cur (min (cur + (CHUNK_DAYS - 1)) today) with
      | none =>
        simp only [hf, foldProcess_nil]
        exact ih _ st (by simp only [CHUNK_DAYS]; omega)
      | some l =>
        by_cases he : l.isEmpty = true
        · simp only [hf, he, if_true, foldProcess_nil]
          exact ih _ st (by simp only [CHUNK_DAYS]; omega)
        · simp only [hf, he, if_false, foldProcess_cons, foldProcess_nil]
          exact ih _ _ (by simp only [CHUNK_DAYS]; omega)
    · rw [backfillLoop, bfLists]
      simp [h, foldProcess_nil]

lemma backfillLoop_requests (env : Env) (today : Nat) :
    ∀ n cur st, today + 1 - cur ≤ n →
      (backfillLoop env today cur st).2 = chunksFrom today cur := by
  intro n
  induction n with
  | zero =>
    intro cur st hn
    have h : ¬ cur ≤ today := by omega
    rw [backfillLoop, chunksFrom]
    simp [h]
  | succ n ih =>
    intro cur st hn
    by_cases h : cur ≤ today
    · rw [backfillLoop, chunksFrom]
      simp only [dif_pos h]
      congr 1
      exact ih _ _ (by simp only [CHUNK_DAYS]; omega)
    · rw [backfillLoop, chunksFrom]
      simp [h]

lemma probeLoop_store (env : Env) (today lookback : Nat) :
    ∀ n i st, lookback - i ≤ n →
      (probeLoop env today lookback i st).2.1 =
        (match probeList env today lookback i with
         | some l => processList env l st
         | none => st) := by
  intro n
  induction n with
  | zero =>
    intro i st hn
    have h : ¬ i < lookback := by omega
    rw [probeLoop, probeList]
    simp [h]
  | succ n ih =>
    intro i st hn
    by_cases h : i < lookback
    · rw [probeLoop, probeList]
      simp only [dif_pos h]
      cases hd : env.daySingle (today - i) with
      | httpErr c =>
        by_cases hc : c = 404
        · simp only [hd, hc, if_pos rfl]
          exact ih (i + 1) st (by omega)
        · simp [hd, hc]
      | netErr => simp [hd]
      | ok body =>
        cases hp : env.parseJson body with
        | none => simp [hd, hp]
        | some l =>
          by_cases he : l.isEmpty = true
          · simp only [hd, hp, he, if_true]
            exact ih (i + 1) st (by omega)
          · simp [hd, hp, he]
    · rw [probeLoop, probeList]
      simp [h]

lemma fetchRecentAndToday_store (env : Env) (today lookback : Nat) (st : Store) :
    (fetchRecentAndToday env today lookback st).2.1 =
      foldProcess env (catchupLists env today lookback) st := by
  unfold fetchRecentAndToday catchupLists
  have hp := probeLoop_store env today lookback lookback 0 st (by omega)
  cases hf : fetchRange env (today - (lookback - 1)) today with
  | none =>
    cases hl : probeList env today lookback 0 with
    | none =>
      rw [hl] at hp
      simp [hp, Option.toList, foldProcess_nil]
    | some l =>
      rw [hl] at hp
      simp [hp, Option.toList, foldProcess_cons, foldProcess_nil]
  | some l =>
    by_cases he : l.isEmpty = true
    · simp only [he, if_true]
      cases hl : probeList env today lookback 0 with
      | none =>
        rw [hl] at hp
        simp [hp, Option.toList, foldProcess_nil]
      | some l' =>
        rw [hl] at hp
        simp [hp, Option.toList, foldProcess_cons, foldProcess_nil]
    · simp [he, foldProcess_cons, foldProcess_nil]

lemma mainRun_store (env : Env) (st : Store) :
    (mainRun env st).2 = foldProcess env (runLists env) st := by
  unfold mainRun runLists
  rw [foldProcess_append]
  cases hb : env.backfillDone with
  | true =>
    simp only [hb, if_true, foldProcess_nil]
    exact fetchRecentAndToday_store env env.today 7 st
  | false =>
    simp only [hb, if_false]
    rw [backfillLoop_store env env.today (env.today + 1 - env.start) env.start st (le_refl _)]
    exact fetchRecentAndToday_store env env.today 7 _

lemma chunksFrom_nil {today cur : Nat} (h : ¬ cur ≤ today) :
    chunksFrom today cur = [] := by
  rw [chunksFrom]
  simp [h]

lemma chunksFrom_cons {today cur : Nat} (h : cur ≤ today) :
    chunksFrom today cur =
      (cur, min (cur + (CHUNK_DAYS - 1)) today) ::
        chunksFrom today (min (cur + (CHUNK_DAYS - 1)) today + 1) := by
  rw [chunksFrom]
  simp [h]

lemma chunksFrom_length (today : Nat) :
    ∀ n cur, today + 1 - cur ≤ n → cur ≤ today →
      (chunksFrom today cur).length =
        (today - cur + 1 + (CHUNK_DAYS - 1)) / CHUNK_DAYS := by
  intro n
  induction n with
  | zero => intro cur hn hc; omega
  | succ n ih =>
    intro cur hn hc
    rw [chunksFrom_cons hc]
    by_cases h : cur + (CHUNK_DAYS - 1) < today
    · have hmin : min (cur + (CHUNK_DAYS - 1)) today = cur + (CHUNK_DAYS - 1) := by omega
      rw [hmin]
      rw [List.length_cons,
        ih (cur + (CHUNK_DAYS - 1) + 1) (by simp only [CHUNK_DAYS] at *; omega)
          (by simp only [CHUNK_DAYS] at *; omega)]
      simp only [CHUNK_DAYS] at *
      omega
    · have hmin : min (cur + (CHUNK_DAYS - 1)) today = today := by omega
      rw [hmin]
      rw [List.length_cons, chunksFrom_nil (by omega)]
      simp only [CHUNK_DAYS] at *
      simp only [List.length_nil]
      omega

lemma chunksFrom_mem_bounds (today : Nat) :
    ∀ n cur, today + 1 - cur ≤ n →
      ∀ c ∈ chunksFrom today cur,
        cur ≤ c.1 ∧ c.1 ≤ c.2 ∧ c.2 ≤ today ∧
        c.2 = min (c.1 + (CHUNK_DAYS - 1)) today := by
  intro n
  induction n with
  | zero =>
    intro cur hn c hc
    rw [chunksFrom_nil (by omega)] at hc
    simp at hc
  | succ n ih =>
    intro cur hn c hc
    by_cases h : cur ≤ today
    · rw [chunksFrom_cons h] at hc
      rcases List.mem_cons.mp hc with h1 | h1
      · subst h1
        refine ⟨le_refl _, ?_, ?_, rfl⟩ <;> simp only [CHUNK_DAYS] <;> omega
      · have := ih (min (cur + (CHUNK_DAYS - 1)) today + 1)
          (by simp only [CHUNK_DAYS]; omega) c h1
        refine ⟨by simp only [CHUNK_DAYS] at *; omega, this.2.1, this.2.2.1, this.2.2.2⟩
    · rw [chunksFrom_nil h] at hc
      simp at hc

lemma chunksFrom_cover (today : Nat) :
    ∀ n cur, today + 1 - cur ≤ n →
      ∀ d, (∃ c ∈ chunksFrom today cur, c.1 ≤ d ∧ d ≤ c.2) ↔ (cur ≤ d ∧ d ≤ today) := by
  intro n
  induction n with
  | zero =>
    intro cur hn d
    rw [chunksFrom_nil (by omega)]
    simp
    omega
  | succ n ih =>
    intro cur hn d
    by_cases h : cur ≤ today
    · rw [chunksFrom_cons h]
      simp only [List.mem_cons]
      constructor
      · rintro ⟨c, hc | hc, hd1, hd2⟩
        · subst hc
          simp only [CHUNK_DAYS] at *
          omega
        · have hb := chunksFrom_mem_bounds today n _
            (by simp only [CHUNK_DAYS]; omega) c hc
          simp only [CHUNK_DAYS] at *
          omega
      · intro hd
        by_cases hin : d ≤ min (cur + (CHUNK_DAYS - 1)) today
        · exact ⟨(cur, min (cur + (CHUNK_DAYS - 1)) today), Or.inl rfl, hd.1, hin⟩
        · have := (ih (min (cur + (CHUNK_DAYS - 1)) today + 1)
            (by simp only [CHUNK_DAYS]; omega) d).mpr (by omega)
          obtain ⟨c, hc, hcd⟩ := this
          exact ⟨c, Or.inr hc, hcd⟩
    · rw [chunksFrom_nil h]
      simp
      omega

lemma chunksFrom_pairwise (today : Nat) :
    ∀ n cur, today + 1 - cur ≤ n →
      (chunksFrom today cur).Pairwise (fun a b => a.2 < b.1) := by
  intro n
  induction n with
  | zero =>
    intro cur hn
    rw [chunksFrom_nil (by omega)]
    exact List.Pairwise.nil
  | succ n ih =>
    intro cur hn
    by_cases h : cur ≤ today
    · rw [chunksFrom_cons h]
      refine List.Pairwise.cons ?_ (ih _ (by simp only [CHUNK_DAYS]; omega))
      intro b hb
      have := chunksFrom_mem_bounds today n _
        (by simp only [CHUNK_DAYS]; omega) b hb
      omega
    · rw [chunksFrom_nil h]
      exact List.Pairwise.nil


lemma httpGetFrom_all5xx (oracle : Nat → HttpResp) (retries : Nat) (base : ℚ)
    (h5 : ∀ n, ∃ c, oracle n = .httpError c ∧ 500 ≤ c ∧ c < 600) :
    ∀ k a, 1 ≤ a → retries + 1 - a = k →
      (httpGetFrom oracle retries base a).2.1 = k + 1 ∧
      (httpGetFrom oracle retries base a).2.2 =
        (List.range k).map (fun i => base * 2 ^ (a - 1 + i)) := by
  intro k
  induction k with
  | zero =>
    intro a ha hk
    obtain ⟨c, hc, h5l, h5u⟩ := h5 a
    have hna : ¬ a ≤ retries := by omega
    have h404 : ¬ c = 404 := by omega
    rw [httpGetFrom, hc]
    simp [h404, hna]
  | succ k ih =>
    intro a ha hk
    obtain ⟨c, hc, h5l, h5u⟩ := h5 a
    have hale : a ≤ retries := by omega
    have h404 : ¬ c = 404 := by omega
    rw [httpGetFrom, hc]
    simp only [if_neg h404, dif_pos (And.intro (And.intro h5l h5u) hale)]
    obtain ⟨ih1, ih2⟩ := ih (a + 1) (by omega) (by omega)
    refine ⟨by simp [ih1], ?_⟩
    have hmap : ∀ x ∈ List.range k,
        ((fun i => base * 2 ^ (a - 1 + i)) ∘ Nat.succ) x =
          base * 2 ^ (a + 1 - 1 + x) := by
      intro x _
      simp only [Function.comp_apply]
      congr 2
      omega
    rw [ih2, List.range_succ_eq_map, List.map_cons, List.map_map,
      List.map_congr_left hmap]
    norm_num

lemma probeLoop_first_data (env : Env) (today lookback : Nat) (st : Store)
    (body : String) (l : List RawEntry) :
    ∀ k i j, j - i = k → i ≤ j → j < lookback →
      (∀ m, i ≤ m → m < j → env.daySingle (today - m) = .httpErr 404) →
      env.daySingle (today - j) = .ok body →
      env.parseJson body = some l → l ≠ [] →
      probeLoop env today lookback i st =
        (true, processList env l st,
          (List.range' i (j - i + 1)).map (fun m => today - m)) := by
  intro k
  induction k with
  | zero =>
    intro i j hk hij hjl h404 hj hp hne
    have hij' : i = j := by omega
    subst hij'
    have he : l.isEmpty = false := by
      cases l with
      | nil => exact absurd rfl hne
      | cons x xs => rfl
    rw [probeLoop]
    simp only [dif_pos hjl, hj, hp]
    simp [he, List.range']
  | succ k ih =>
    intro i j hk hij hjl h404 hj hp hne
    have hilt : i < j := by omega
    rw [probeLoop]
    simp only [dif_pos (show i < lookback by omega), h404 i (le_refl i) hilt]
    simp only [if_true]
    rw [ih (i + 1) j (by omega) (by omega) hjl
      (fun m hm1 hm2 => h404 m (by omega) hm2) hj hp hne]
    have hlen : j - i + 1 = (j - (i + 1) + 1) + 1 := by omega
    rw [hlen]
    simp [List.range']

/-- C1: Idempotence of ingestion — for every date whose artifact already
exists at the canonical path, `process_table_entry` returns success having
only appended to the activity log (the write function is not called, the
write-call record is unchanged), and a second `main()` run over the same
environment (same upstream data, writes succeeding) produces an identical
artifact-file set and performs no duplicate write call. -/
theorem c1_idempotent_ingestion (env : Env) (hw : ∀ d, env.writeOk d = true) :
    (∀ entry st d, dateOf entry = some d → (st.files d).isSome →
      processTableEntry env entry st =
        (true, { st with log := st.log ++ [pathForDate d] })) ∧
    (∀ st,
      (mainRun env (mainRun env st).2).2.files = (mainRun env st).2.files ∧
      (mainRun env (mainRun env st).2).2.writeCalls = (mainRun env st).2.writeCalls) := by
  refine ⟨fun entry st d hd hex => processTableEntry_exists_skip hd hex, fun st => ?_⟩
  rw [mainRun_store env (mainRun env st).2, mainRun_store env st]
  exact foldProcess_noop (fun l hl e he d hd =>
    foldProcess_establishes hl he hd (hw d))

/-- Witness for C1: the 2024-03-01 artifact exists, so processing its
entry again succeeds by the skip path, appending one log line. -/
theorem c1_idempotent_ingestion_witness :
    processTableEntry envAllOk entryMar1 stWithMar1 =
      (true, { stWithMar1 with log := [pathForDate d0] }) := by
  have h := (c1_idempotent_ingestion envAllOk (fun _ => rfl)).1 entryMar1 stWithMar1 d0
    (by decide) (by decide)
  simpa [stWithMar1] using h

/-- C2: Chunk coverage without gaps or overlap — for start `s` and end `t`
with `s ≤ t`, the backfill loop issues exactly `⌈D / C⌉` range requests
(`D = t - s + 1` days, `C = CHUNK_DAYS`; in `Nat` division
`⌈D / C⌉ = (D + (C - 1)) / C`), each request is `[cur, min(cur + C - 1, t)]`,
the requested closed sub-ranges are pairwise disjoint, and their union is
exactly `[s, t]`. -/
theorem c2_chunk_coverage (env : Env) (st : Store) (s t : Nat) (h : s ≤ t) :
    ((backfillLoop env t s st).2).length =
      (t - s + 1 + (CHUNK_DAYS - 1)) / CHUNK_DAYS ∧
    ((backfillLoop env t s st).2).Pairwise
      (fun a b => ∀ d, ¬(a.1 ≤ d ∧ d ≤ a.2 ∧ b.1 ≤ d ∧ d ≤ b.2)) ∧
    (∀ d, (∃ c ∈ (backfillLoop env t s st).2, c.1 ≤ d ∧ d ≤ c.2) ↔ (s ≤ d ∧ d ≤ t)) ∧
    (∀ c ∈ (backfillLoop env t s st).2, c.2 = min (c.1 + (CHUNK_DAYS - 1)) t) := by
  rw [backfillLoop_requests env t (t + 1 - s) s st (le_refl _)]
  refine ⟨chunksFrom_length t (t + 1 - s) s (le_refl _) h, ?_, ?_, ?_⟩
  · exact (chunksFrom_pairwise t (t + 1 - s) s (le_refl _)).imp
      (fun hab d => by omega)
  · exact chunksFrom_cover t (t + 1 - s) s (le_refl _)
  · intro c hc
    exact (chunksFrom_mem_bounds t (t + 1 - s) s (le_refl _) c hc).2.2.2

/-- Witness for C2 at the concrete window [5, 200]. -/
theorem c2_chunk_coverage_witness :
    5 ≤ 200 ∧
    ((backfillLoop envAllOk 200 5 stEmpty).2).length =
      (200 - 5 + 1 + (CHUNK_DAYS - 1)) / CHUNK_DAYS :=
  ⟨by omega, (c2_chunk_coverage envAllOk stEmpty 5 200 (by omega)).1⟩

/-- C3 (counterexample): a run whose only fetched entry suffers a failed
artifact write still exits with code 0 — refuting "exits with a non-zero
code whenever any artifact write failed". -/
theorem c3_counterexample :
    (mainRun env3 stEmpty).1 = 0 ∧ (mainRun env3 stEmpty).2.failedWrites = [d0] := by
  exact ⟨rfl, by decide⟩

/-- C3 (amended): the ingestion run always exits with code 0 —
`sys.exit(0)` is unconditional, and write or fetch failures are only
logged, never reflected in the exit code. -/
theorem c3_exit_code_always_zero (env : Env) (st : Store) : (mainRun env st).1 = 0 := rfl

/-- C4 (counterexample): a quote record lacking all three price fields
`mid`/`bid`/`ask` but carrying a `code` is retained by the normalizer,
refuting "a record lacking all three price fields is excluded". -/
theorem c4_counterexample :
    rateCodeOnly.mid = none ∧ rateCodeOnly.bid = none ∧ rateCodeOnly.ask = none ∧
    normalizeRates [RawItem.dict rateCodeOnly] ≠ [] := by decide

/-- C4 (amended): the normalizer drops a quote record exactly when it
yields none of `currency`/`code`/`mid`/`bid`/`ask`; in particular a record
carrying only `bid` and `ask` (no `mid`) is retained, but a priceless
record with a `code` or `currency` is retained as well. -/
theorem c4_quote_filtering (r : RawRate) :
    (normalizeRates [RawItem.dict r] = [] ↔
      (currencyOf r = none ∧ codeOf r = none ∧
       r.mid = none ∧ r.bid = none ∧ r.ask = none)) ∧
    (r.mid ≠ none ∨ r.bid ≠ none ∨ r.ask ≠ none →
      normalizeRates [RawItem.dict r] = [mkRateEntry r]) := by
  have hchar : (mkRateEntry r).isEmptyEntry = true ↔
      (currencyOf r = none ∧ codeOf r = none ∧
       r.mid = none ∧ r.bid = none ∧ r.ask = none) := by
    simp [mkRateEntry, RateEntry.isEmptyEntry]
  constructor
  · constructor
    · intro h
      by_cases he : (mkRateEntry r).isEmptyEntry = true
      · exact hchar.mp he
      · simp [normalizeRates, he] at h
    · intro h
      simp [normalizeRates, hchar.mpr h]
  · intro hp
    have he : ¬ (mkRateEntry r).isEmptyEntry = true := by
      intro he
      rcases hp with h | h | h
      · exact h (hchar.mp he).2.2.1
      · exact h (hchar.mp he).2.2.2.1
      · exact h (hchar.mp he).2.2.2.2
    simp [normalizeRates, he]

/-- Witness for C4: a bid/ask-only record is retained. -/
theorem c4_quote_filtering_witness :
    normalizeRates [RawItem.dict { bid := some (.jnum 4), ask := some (.jnum 5) }] =
      [{ bid := some (.jnum 4), ask := some (.jnum 5) }] := by
  have h := (c4_quote_filtering { bid := some (.jnum 4), ask := some (.jnum 5) }).2
    (Or.inr (Or.inl (by decide)))
  exact h.trans (by decide)

/-- C5: Migration safety — for a legacy file (regular, relevant extension,
determinable date): an empty destination leaves the file only at the
canonical path; a byte-identical destination leaves only the destination
(the source is deleted); divergent content leaves both contents on disk
under distinct names (timestamped backup of the old target, or a conflict
name for the source) — a deletion happens only in the byte-identical
case. -/
theorem c5_migration_safety (name : String) (doc : Option JsonDoc)
    (srcM tgtM : Option ℚ) (fs : MigFS) (c : String)
    (hsrc : fs.src = some c) (hbak : fs.bak = none) (hconf : fs.conflict = none)
    (hrel : relevantName name = true) (hyear : (determineYear name doc).isSome) :
    (fs.tgt = none →
      migrateFile name doc srcM tgtM fs =
        ⟨none, some c, none, none, fs.quarantineSlot⟩) ∧
    (fs.tgt = some c →
      migrateFile name doc srcM tgtM fs = { fs with src := none }) ∧
    (∀ tc, fs.tgt = some tc → tc ≠ c →
      (migrateFile name doc srcM tgtM fs).src = none ∧
      (((migrateFile name doc srcM tgtM fs).tgt = some c ∧
        (migrateFile name doc srcM tgtM fs).bak = some tc ∧
        (migrateFile name doc srcM tgtM fs).conflict = none) ∨
       ((migrateFile name doc srcM tgtM fs).tgt = some tc ∧
        (migrateFile name doc srcM tgtM fs).conflict = some c ∧
        (migrateFile name doc srcM tgtM fs).bak = none)) ∧
      (migrateFile name doc srcM tgtM fs).quarantineSlot = fs.quarantineSlot) := by
  obtain ⟨y, hy⟩ := Option.isSome_iff_exists.mp hyear
  obtain ⟨fsrc, ftgt, fbak, fconf, fq⟩ := fs
  simp only at hsrc hbak hconf
  subst hsrc
  subst hbak
  subst hconf
  refine ⟨?_, ?_, ?_⟩
  · intro htgt
    simp only at htgt
    subst htgt
    simp [migrateFile, classifyFile, hrel, hy, applyAction]
  · intro htgt
    simp only at htgt
    subst htgt
    simp [migrateFile, classifyFile, hrel, hy, applyAction]
  · intro tc htgt hne
    simp only at htgt
    subst htgt
    have hne' : ¬ c = tc := fun h => hne h.symm
    by_cases hm : truthyM srcM = true ∧ truthyM tgtM = true ∧ tgtM.getD 0 < srcM.getD 0
    · simp [migrateFile, classifyFile, hrel, hy, applyAction, hne', hm]
    · simp [migrateFile, classifyFile, hrel, hy, applyAction, hne', hm]

/-- Witness for C5: divergent contents with unavailable mtimes — the
source moves aside under the conflict name, the target stays. -/
theorem c5_migration_safety_witness :
    (migrateFile "01_02_2023.json" none none none fs0).src = none ∧
    (migrateFile "01_02_2023.json" none none none fs0).conflict = some "A" := by
  have h := (c5_migration_safety "01_02_2023.json" none none none fs0 "A"
    rfl rfl rfl (by decide) (by decide)).2.2 "B" rfl (by decide)
  refine ⟨h.1, ?_⟩
  rcases h.2.1 with ⟨_, hb, _⟩ | ⟨_, hc, _⟩
  · exact absurd hb (by decide)
  · exact hc

/-- C6: Retry bound — when every attempt is answered with a 5xx server
fault, `http_get` issues exactly `retries + 1` attempts before returning
the failure, and the sleep delays between consecutive attempts are
`backoff_base * 2 ^ (attempt - 1)`, a strictly increasing sequence. -/
theorem c6_retry_bound (oracle : Nat → HttpResp) (retries : Nat) (base : ℚ)
    (h5 : ∀ n, ∃ c, oracle n = .httpError c ∧ 500 ≤ c ∧ c < 600)
    (hb : 0 < base) :
    (httpGet oracle retries base).2.1 = retries + 1 ∧
    (httpGet oracle retries base).2.2 =
      (List.range retries).map (fun i => base * 2 ^ i) ∧
    (httpGet oracle retries base).2.2.Pairwise (· < ·) := by
  obtain ⟨h1, h2⟩ := httpGetFrom_all5xx oracle retries base h5 retries 1
    (le_refl 1) (by omega)
  have h2' : (httpGet oracle retries base).2.2 =
      (List.range retries).map (fun i => base * 2 ^ i) := by
    rw [httpGet, h2]
    apply List.map_congr_left
    intro i _
    norm_num
  refine ⟨by rw [httpGet]; exact h1, h2', ?_⟩
  rw [h2']
  refine List.Pairwise.map _ ?_ (List.pairwise_lt_range retries)
  intro a b hab
  exact mul_lt_mul_of_pos_left (pow_lt_pow_right₀ (by norm_num) hab) hb

/-- Witness for C6: four attempts with the default three retries. -/
theorem c6_retry_bound_witness :
    (httpGet (fun _ => .httpError 500) 3 (1 / 2)).2.1 = 3 + 1 :=
  (c6_retry_bound (fun _ => .httpError 500) 3 (1 / 2)
    (fun _ => ⟨500, rfl, by omega, by omega⟩) (by norm_num)).1

/-- C7: 404 handling — a request answered with HTTP 404 returns after the
first attempt with no retry and no sleep, and the caller distinguishes it
behaviorally from the other failure signals: in the single-day loop a 404
skips to the next older day, while a non-404 HTTP error (the shape of
exhausted retries) and a malformed body both abort with `False`. -/
theorem c7_notfound_handling (oracle : Nat → HttpResp) (retries : Nat) (base : ℚ)
    (h404 : oracle 1 = .httpError 404) :
    httpGet oracle retries base = (.httpErr 404, 1, []) ∧
    (∀ env today lookback i st, i < lookback →
      env.daySingle (today - i) = .httpErr 404 →
      probeLoop env today lookback i st =
        ((probeLoop env today lookback (i + 1) st).1,
         (probeLoop env today lookback (i + 1) st).2.1,
         (today - i) :: (probeLoop env today lookback (i + 1) st).2.2)) ∧
    (∀ env today lookback i st c, i < lookback → c ≠ 404 →
      env.daySingle (today - i) = .httpErr c →
      probeLoop env today lookback i st = (false, st, [today - i])) ∧
    (∀ env today lookback i st body, i < lookback →
      env.daySingle (today - i) = .ok body → env.parseJson body = none →
      probeLoop env today lookback i st = (false, st, [today - i])) := by
  refine ⟨?_, ?_, ?_, ?_⟩
  · rw [httpGet, httpGetFrom, h404]
    simp
  · intro env today lookback i st hi hd
    rw [probeLoop]
    simp [dif_pos hi, hd]
  · intro env today lookback i st c hi hc hd
    rw [probeLoop]
    simp [dif_pos hi, hd, hc]
  · intro env today lookback i st body hi hd hp
    rw [probeLoop]
    simp [dif_pos hi, hd, hp]

/-- Witness for C7: a 404 on the first attempt. -/
theorem c7_notfound_handling_witness :
    httpGet (fun _ => .httpError 404) 3 (1 / 2) = (.httpErr 404, 1, []) :=
  (c7_notfound_handling (fun _ => .httpError 404) 3 (1 / 2) rfl).1

lemma list_isEmpty_iff_nil {α : Type} (l : List α) : l.isEmpty = true ↔ l = [] := by
  cases l <;> simp

lemma list_isEmpty_false_of_mem {α : Type} {l : List α} {a : α} (h : a ∈ l) :
    l.isEmpty = false := by
  cases l with
  | nil => simp at h
  | cons x xs => rfl

/-- C8: Recent catch-up fallback — when the trailing 7-day range request
yields no data, the catch-up probes single days from today backwards, most
recent first, skips every 404 day, and stops at the first day whose
response contains data: the probed days are exactly
`today, today - 1, ..., today - j`. -/
theorem c8_recent_catchup_fallback (env : Env) (today : Nat) (st : Store)
    (j : Nat) (body : String) (l : List RawEntry)
    (hrange : fetchRange env (today - 6) today = none ∨
              fetchRange env (today - 6) today = some [])
    (hj : j < 7)
    (h404 : ∀ i, i < j → env.daySingle (today - i) = .httpErr 404)
    (hdata : env.daySingle (today - j) = .ok body)
    (hparse : env.parseJson body = some l)
    (hne : l ≠ []) :
    fetchRecentAndToday env today 7 st =
      (true, processList env l st, (List.range (j + 1)).map (fun i => today - i)) := by
  have hfall : fetchRecentAndToday env today 7 st = probeLoop env today 7 0 st := by
    unfold fetchRecentAndToday
    have h6 : today - (7 - 1) = today - 6 := rfl
    rw [h6]
    rcases hrange with h | h
    · rw [h]
    · rw [h]
      simp
  rw [hfall]
  rw [probeLoop_first_data env today 7 st body l j 0 j (by omega) (by omega) hj
    (fun m _ hm2 => h404 m hm2) hdata hparse hne]
  simp [List.range_eq_range']

/-- Witness for C8: range empty, days 10 and 9 answer 404, day 8 has
data — probed days are 10, 9, 8 in that order. -/
theorem c8_recent_catchup_fallback_witness :
    fetchRecentAndToday env8 10 7 stEmpty =
      (true, processList env8 [entryMar1] stEmpty, [10, 9, 8]) := by
  have h := c8_recent_catchup_fallback env8 10 stEmpty 2 "B" [entryMar1]
    (Or.inl rfl) (by omega) (by decide) (by decide) (by decide) (by decide)
  simpa [List.range_succ] using h

lemma processTableEntry_write_succeeds {env : Env} {entry : RawEntry} {st : Store}
    {d : YMD} (hd : dateOf entry = some d) (hex : (st.files d).isSome = false)
    (hw : env.writeOk d = true) :
    (processTableEntry env entry st).1 = true ∧
    (processTableEntry env entry st).2.log = st.log ++ [pathForDate d] ∧
    (processTableEntry env entry st).2.writeCalls = st.writeCalls ++ [d] := by
  cases entry with
  | nondict => simp [dateOf] at hd
  | dict e =>
    obtain ⟨v, heff, ht, hdv⟩ := dateOf_dict_elim hd
    simp [processTableEntry, heff, ht, hdv, hex, hw]

lemma processTableEntry_write_fails {env : Env} {entry : RawEntry} {st : Store}
    {d : YMD} (hd : dateOf entry = some d) (hex : (st.files d).isSome = false)
    (hw : env.writeOk d = false) :
    (processTableEntry env entry st).1 = false ∧
    (processTableEntry env entry st).2.log = st.log ∧
    (processTableEntry env entry st).2.writeCalls = st.writeCalls ++ [d] ∧
    (processTableEntry env entry st).2.failedWrites = st.failedWrites ++ [d] := by
  cases entry with
  | nondict => simp [dateOf] at hd
  | dict e =>
    obtain ⟨v, heff, ht, hdv⟩ := dateOf_dict_elim hd
    simp [processTableEntry, heff, ht, hdv, hex, hw]

/-- C9 (counterexample): processing an entry whose artifact already exists
appends an activity-log line while calling the write function zero times —
refuting "an entry is appended ... only for successful writes". -/
theorem c9_counterexample :
    (processTableEntry envAllOk entryMar1 stWithMar1).2.log.length =
      stWithMar1.log.length + 1 ∧
    (processTableEntry envAllOk entryMar1 stWithMar1).2.writeCalls = [] := by decide

/-- C9 (amended): an activity-log entry is appended exactly when
`process_table_entry` succeeds — that is, for each successful artifact
write and also for each skip of an already-existing artifact; nothing is
appended on a failed write, and the ingestion logic never reads the log
back (its behavior is independent of the log's content). -/
theorem c9_activity_log (env : Env) (entry : RawEntry) (st : Store) (d : YMD)
    (hd : dateOf entry = some d) :
    ((processTableEntry env entry st).1 = true →
      (processTableEntry env entry st).2.log = st.log ++ [pathForDate d] ∧
      ((st.files d).isSome ∨ env.writeOk d = true)) ∧
    ((processTableEntry env entry st).1 = false →
      (processTableEntry env entry st).2.log = st.log) ∧
    (∀ lg, (processTableEntry env entry { st with log := lg }).1 =
      (processTableEntry env entry st).1) := by
  by_cases hex : (st.files d).isSome = true
  · rw [processTableEntry_exists_skip hd hex]
    refine ⟨fun _ => ⟨rfl, Or.inl hex⟩, fun hf => absurd hf (by simp),
      fun lg => ?_⟩
    rw [@processTableEntry_exists_skip env entry { st with log := lg } d hd hex]
  · have hex' : (st.files d).isSome = false := by simpa using hex
    by_cases hw : env.writeOk d = true
    · obtain ⟨h1, h2, _⟩ := processTableEntry_write_succeeds hd hex' hw
      refine ⟨fun _ => ⟨h2, Or.inr hw⟩, fun hf => absurd hf (by simp [h1]),
        fun lg => ?_⟩
      obtain ⟨h1', _, _⟩ :=
        @processTableEntry_write_succeeds env entry { st with log := lg } d hd hex' hw
      rw [h1', h1]
    · have hw' : env.writeOk d = false := by simpa using hw
      obtain ⟨h1, h2, _, _⟩ := processTableEntry_write_fails hd hex' hw'
      refine ⟨fun htr => absurd htr (by simp [h1]), fun _ => h2, fun lg => ?_⟩
      obtain ⟨h1', _, _, _⟩ :=
        @processTableEntry_write_fails env entry { st with log := lg } d hd hex' hw'
      rw [h1', h1]

/-- Witness for C9: a successful write appends its artifact path. -/
theorem c9_activity_log_witness :
    (processTableEntry envAllOk entryMar1 stEmpty).2.log = [pathForDate d0] := by
  have h := ((c9_activity_log envAllOk entryMar1 stEmpty d0 (by decide)).1
    (by decide)).1
  simpa [stEmpty] using h

/-- C10: Migration frame — a legacy-directory file whose name ends in
neither `.json` nor `.json.gz` is left in place (no action is chosen for
it, it remains in the directory listing), and a legacy directory that
still contains any entry after processing is not removed: removal happens
exactly when the directory was fully emptied. -/
theorem c10_migration_frame (menv : MigEnv) (entries : List DirEntry)
    (name content : String) (doc : Option JsonDoc) (srcM : Option ℚ)
    (hmem : DirEntry.file name content doc srcM ∈ entries)
    (hj : pyEndsWith name ".json" = false)
    (hgz : pyEndsWith name ".json.gz" = false) :
    entryAction menv (DirEntry.file name content doc srcM) = .skipIrrelevant ∧
    DirEntry.file name content doc srcM ∈ (processLegacyDir menv entries).1 ∧
    (processLegacyDir menv entries).2 = false ∧
    (∀ es : List DirEntry,
      (processLegacyDir menv es).2 = true ↔ (processLegacyDir menv es).1 = []) := by
  have hrel : relevantName name = false := by
    simp [relevantName, hj, hgz]
  have ha : entryAction menv (DirEntry.file name content doc srcM) = .skipIrrelevant := by
    unfold entryAction
    cases h : determineYear name doc <;> simp [h, classifyFile, hrel]
  have hmf : DirEntry.file name content doc srcM ∈
      entries.filter (fun e => entryAction menv e = FileAction.skipIrrelevant) :=
    List.mem_filter.mpr ⟨hmem, by simp [ha]⟩
  refine ⟨ha, ?_, ?_, ?_⟩
  · unfold processLegacyDir
    exact hmf
  · unfold processLegacyDir
    exact list_isEmpty_false_of_mem hmf
  · intro es
    unfold processLegacyDir
    exact list_isEmpty_iff_nil _

/-- Witness for C10: a `README.txt` in a legacy directory stays, and the
directory is not removed. -/
theorem c10_migration_frame_witness :
    DirEntry.file "README.txt" "hello" none none ∈ (processLegacyDir menv0 entries0).1 ∧
    (processLegacyDir menv0 entries0).2 = false := by
  have h := c10_migration_frame menv0 entries0 "README.txt" "hello" none none
    (by decide) (by decide) (by decide)
  exact ⟨h.2.1, h.2.2.1⟩
